import Mathlib

/-!
Verification of the `wordgen` password/word generator (Go package `wordgen`).

The development shallowly embeds the relevant parts of `wordgen.go`:
* the odometer counter (`nextState`), its decoding into words, and the
  producer loop's counter trajectory (`runCounter`),
* configuration validation (`NewWordGen`) including default substitution,
  charset checks and initial-state decoding,
* buffer-capacity rounding (`roundToNearestPowerOfTwo`, with `uint64`
  arithmetic modelled as `Nat` with explicit wrap-around),
* the engine's cursor/flag state machine (`Engine`, `Step`) covering the
  producer critical section, `Next`, `Batch` pops, stop and restart.

Machine integers (`uint` / `uint64`) are modelled as `Nat`; the saturating
`uint64` subtraction used by Go on values satisfying the cursor invariant
coincides with truncated `Nat` subtraction. Go panics (out-of-range slice
indexing) are modelled by `Option` where the control flow can reach them and
by `getD` defaults where it cannot.
-/

namespace Wordgen

/-- The odometer counter state of the generator: the Go fields `pg.state`
(digit indices into the charset, position 0 is the fastest-changing digit)
and `pg.stateLen` (the Go code keeps the length in a separate mutable field;
after an EOF return it exceeds `state.length`). -/
structure Counter where
  state : List ℕ
  stateLen : ℕ
deriving Repr, DecidableEq

/-- The carry loop of `nextState` (wordgen.go:372-392), processing digits
from position `i` upwards; `rem` is `stateLen - i` and the list argument is
`state.drop i`.  Returns the rewritten digit suffix together with a flag
telling whether the carry ran past position `stateLen - 1` (so the length
must grow).  `none` models the Go panic that an index `i < stateLen` but
`i ≥ len(state)` would trigger. -/
def incLoop (R : ℕ) : ℕ → List ℕ → Option (List ℕ × Bool)
  | 0, ds => some (ds, true)
  | _ + 1, [] => none
  | rem + 1, d :: ds =>
      if d + 1 < R then some ((d + 1) :: ds, false)
      else (incLoop R rem ds).map (fun r => (0 :: r.1, r.2))

/-- `nextState` (wordgen.go:370-395).  Advances the counter to the next
state; the `Bool` is `true` exactly when the Go function returns `io.EOF`
(exhaustion).  On exhaustion the mutated counter (digits zeroed by the
carry, `stateLen` incremented past `maxLen`) is left behind, exactly as the
Go method leaves `pg.state` / `pg.stateLen`.  `none` models a Go panic. -/
def nextState (R maxLen : ℕ) (c : Counter) : Option (Counter × Bool) :=
  match incLoop R c.stateLen c.state with
  | none => none
  | some (st, carried) =>
      if carried then
        if maxLen < c.stateLen + 1 then some (⟨st, c.stateLen + 1⟩, true)
        else some (⟨st ++ [0], c.stateLen + 1⟩, false)
      else some (⟨st, c.stateLen⟩, false)

/-- The slot-filling loop of `runGenerator` (wordgen.go:340-345): the word
written for counter `c` is `charset[c.state[i]]` for `i = 0 .. stateLen-1`,
in index order.  Out-of-range indexing (a Go panic, unreachable for the
states an actual run visits) is modelled by the `getD` defaults. -/
def decodeWord (charset : List Char) (c : Counter) : List Char :=
  (List.range c.stateLen).map (fun i => charset.getD (c.state.getD i 0) 'a')

/-- The counter trajectory of `runGenerator` (wordgen.go:315-368) on a full
unconstrained run: each iteration publishes the current state and then calls
`nextState`, stopping when it reports exhaustion (or would panic).  `fuel`
bounds the iteration count; every theorem below quantifies over all
sufficiently large fuels, so termination is by exhaustion, not by fuel. -/
def runCounter (R maxLen : ℕ) : ℕ → Counter → List Counter
  | 0, _ => []
  | fuel + 1, c =>
      c :: (match nextState R maxLen c with
            | some (c2, false) => runCounter R maxLen fuel c2
            | _ => [])

/-- Little-endian base-`R` digit list of `k`, padded/truncated to length
`L`.  Specification-side description of a counter state of length `L` and
odometer rank `k`. -/
def digitsOfNat (R : ℕ) : ℕ → ℕ → List ℕ
  | 0, _ => []
  | L + 1, k => k % R :: digitsOfNat R L (k / R)

/-- Odometer rank of a digit list: digit 0 is least significant. -/
def valOfDigits (R : ℕ) (ds : List ℕ) : ℕ :=
  ds.foldr (fun d acc => d + R * acc) 0

/-- The counter state of length `L` and rank `k`. -/
def counterOfNat (R L k : ℕ) : Counter :=
  ⟨digitsOfNat R L k, L⟩

/-- All counter states of length `L`, in odometer order. -/
def enumBlock (R L : ℕ) : List Counter :=
  (List.range (R ^ L)).map (counterOfNat R L)

/-- All counter states of lengths `lo, lo+1, …, lo+n-1`, length-major,
odometer-minor. -/
def enumLens (R : ℕ) : ℕ → ℕ → List Counter
  | _, 0 => []
  | lo, n + 1 => enumBlock R lo ++ enumLens R (lo + 1) n

/-- The full expected enumeration for lengths `minLen … maxLen`. -/
def enumAll (R minLen maxLen : ℕ) : List Counter :=
  enumLens R minLen (maxLen + 1 - minLen)

/-- `Σ_{ℓ = lo}^{lo+n-1} R^ℓ`. -/
def sumPows (R : ℕ) : ℕ → ℕ → ℕ
  | _, 0 => 0
  | lo, n + 1 => R ^ lo + sumPows R (lo + 1) n

/-- `Σ_{L = minLen}^{maxLen} R^L`, the claimed total number of items. -/
def totalCount (R minLen maxLen : ℕ) : ℕ :=
  sumPows R minLen (maxLen + 1 - minLen)

/-- Number of items still to be produced when the counter holds the state of
length `L` and rank `k`. -/
def remCount (R maxLen L k : ℕ) : ℕ :=
  (R ^ L - k) + sumPows R (L + 1) (maxLen - L)

/-- Go's `bits.Len64`: the number of bits needed to represent a `uint64`
value `n`, i.e. the number of bit positions `i < 64` with `2^i ≤ n`
(`⌊log₂ n⌋ + 1` for `n > 0`, and 0 for `n = 0`). -/
def bitsLen64 (n : ℕ) : ℕ :=
  ((List.range 64).filter (fun i => 2 ^ i ≤ n)).length

/-- `uint64` subtraction with wrap-around, for operands below `2^64`. -/
def sub64 (a b : ℕ) : ℕ :=
  (a + 2 ^ 64 - b) % 2 ^ 64

/-- `roundToNearestPowerOfTwo` (wordgen.go:397-417).  `uint64` arithmetic is
modelled with explicit `% 2^64`: `1 << bits.Len64 n` overflows to 0 when `n`
has bit 63 set, and the two `uint64` subtractions in the comparison wrap. -/
def roundToNearestPowerOfTwo (n : ℕ) : ℕ :=
  if n = 0 then 1
  else if n &&& (n - 1) = 0 then n
  else
    let next := 2 ^ bitsLen64 n % 2 ^ 64
    let prev := next / 2
    if sub64 n prev < sub64 next n then prev else next

/-- The configuration record (wordgen.go:25-31); `uint`/`uint64` fields are
modelled as `Nat`, `string`/`[]byte` as `List Char`. -/
structure Config where
  charset : List Char
  initialState : List Char
  minLen : ℕ
  maxLen : ℕ
  bufferSize : ℕ
deriving Repr, DecidableEq

/-- The construction-time error cases of `NewWordGen`, one per distinct
`fmt.Errorf` message (wordgen.go:62-142). -/
inductive ConfigError where
  | minGtMax
  | emptyCharset
  | dupInCharset (i : ℕ)
  | initTooShort
  | initTooLong
  | initBadChar (c : Char) (i : ℕ)
deriving Repr, DecidableEq

/-- The configuration-derived part of a constructed `WordGen` value: the
effective charset, length bounds, decoded initial digit state, and the
rounded buffer capacity `pg.bufSize`. -/
structure WordGen where
  charset : List Char
  minLen : ℕ
  maxLen : ℕ
  initialState : List ℕ
  bufSize : ℕ
deriving Repr, DecidableEq

/-- The 62-symbol default charset (wordgen.go:18). -/
def defaultCharsetL : List Char :=
  "abcdefghijklmnopqrstuvwxyzABCDEFGHIJKLMNOPQRSTUVWXYZ0123456789".toList

/-- The duplicate scan of `NewWordGen` (wordgen.go:96-103): first index `i`
whose character already occurred earlier (`seen` accumulates the prefix). -/
def findDup (seen : List Char) : List Char → ℕ → Option ℕ
  | [], _ => none
  | c :: rest, i => if c ∈ seen then some i else findDup (c :: seen) rest (i + 1)

/-- `bytes.IndexByte`: index of the first occurrence, `none` (Go `-1`) when
absent. -/
def bIndexOf (cs : List Char) (c : Char) : Option ℕ :=
  match cs with
  | [] => none
  | x :: rest => if x = c then some 0 else (bIndexOf rest c).map (fun j => j + 1)

/-- The initial-state decoding loop of `NewWordGen` (wordgen.go:114-121):
each character is looked up in the charset; the first absent character
aborts construction with its index. -/
def decodeInit (cs : List Char) : List Char → ℕ → Except ConfigError (List ℕ)
  | [], _ => .ok []
  | c :: rest, i =>
      match bIndexOf cs c with
      | none => .error (.initBadChar c i)
      | some n => (decodeInit cs rest (i + 1)).map (fun ds => n :: ds)

/-- `NewWordGen` (wordgen.go:62-142): default substitution for zero-valued
`MinLen`, `MaxLen`, empty `Charset` and undersized `BufferSize`, then the
validation sequence in source order (min/max, empty charset, duplicate scan,
initial-state length and symbol checks), producing the effective engine
parameters. -/
def NewWordGen (cfg : Config) : Except ConfigError WordGen :=
  let minLen := if cfg.minLen = 0 then 8 else cfg.minLen
  let maxLen := if cfg.maxLen = 0 then 10 else cfg.maxLen
  let charset := if cfg.charset = [] then defaultCharsetL else cfg.charset
  if maxLen < minLen then .error .minGtMax
  else
    let bufferSize := if cfg.bufferSize < 1 then 1 else cfg.bufferSize
    if charset.length = 0 then .error .emptyCharset
    else
      match findDup [] charset 0 with
      | some i => .error (.dupInCharset i)
      | none =>
          if 0 < cfg.initialState.length then
            if cfg.initialState.length < minLen then .error .initTooShort
            else if maxLen < cfg.initialState.length then .error .initTooLong
            else
              match decodeInit charset cfg.initialState 0 with
              | .error e => .error e
              | .ok digits =>
                  .ok ⟨charset, minLen, maxLen, digits,
                    roundToNearestPowerOfTwo bufferSize⟩
          else
            .ok ⟨charset, minLen, maxLen, List.replicate minLen 0,
              roundToNearestPowerOfTwo bufferSize⟩

/-- The mutable engine state of a `WordGen` (wordgen.go:33-59): buffer
cursors and slots, counter state, statistics and the running flag.
`time.Time` values are modelled as `Nat` with 0 for the zero value. -/
structure Engine where
  charset : List Char
  maxLen : ℕ
  initialState : List ℕ
  startTime : ℕ
  endTime : ℕ
  generated : ℕ
  bufSize : ℕ
  buf : List (List Char)
  bufR : ℕ
  bufW : ℕ
  state : List ℕ
  stateLen : ℕ
  running : Bool
deriving Repr, DecidableEq

/-- The engine as freshly constructed by `NewWordGen` (wordgen.go:83-141):
empty slots, zero cursors and statistics, not running. -/
def mkEngine (wg : WordGen) : Engine :=
  ⟨wg.charset, wg.maxLen, wg.initialState, 0, 0, 0, wg.bufSize,
    List.replicate wg.bufSize [], 0, 0, [], 0, false⟩

/-- The reset critical section of `Run` (wordgen.go:150-171): fails if
already running, otherwise resets timestamps, counter state and both
cursors, and raises the running flag.  `generated` is not touched. -/
def runStart (e : Engine) (now : ℕ) : Option Engine :=
  if e.running then none
  else
    some { e with
      startTime := now
      endTime := 0
      state := e.initialState
      stateLen := e.initialState.length
      bufR := 0
      bufW := 0
      running := true }

/-- `Stats` (wordgen.go:198-214): `(0, 0)` before any run, otherwise the
cumulative item count with the elapsed time against `now` or the recorded
end time. -/
def stats (e : Engine) (now : ℕ) : ℕ × ℕ :=
  if e.startTime = 0 then (0, 0)
  else if e.endTime = 0 then (e.generated, now - e.startTime)
  else (e.generated, e.endTime - e.startTime)

/-- One iteration of the producer loop `runGenerator` (wordgen.go:319-365),
i.e. one critical section under the lock.  The `Bool` tells whether the
loop continues: it stops when the running flag is down or the counter is
exhausted (and on the unreachable panic branch, where Go would return an
error).  When the buffer is full the iteration changes nothing (the Go code
sleeps and retries). -/
def prodStep (e : Engine) : Engine × Bool :=
  if e.running = false then (e, false)
  else if e.bufSize ≤ e.bufW - e.bufR then (e, true)
  else
    let idx := e.bufW &&& (e.bufSize - 1)
    let w := decodeWord e.charset ⟨e.state, e.stateLen⟩
    let e1 : Engine :=
      { e with
        buf := e.buf.set idx w
        bufW := e.bufW + 1
        generated := e.generated + 1 }
    match nextState e.charset.length e.maxLen ⟨e.state, e.stateLen⟩ with
    | some (c2, false) => ({ e1 with state := c2.state, stateLen := c2.stateLen }, true)
    | some (c2, true) => ({ e1 with state := c2.state, stateLen := c2.stateLen }, false)
    | none => (e1, false)

/-- The epilogue of `Run`'s generator goroutine (wordgen.go:183-186): once
the producer loop returns, the end time is recorded and the running flag is
cleared. -/
def prodFinish (e : Engine) (now : ℕ) : Engine :=
  { e with endTime := now, running := false }

/-- `Stop` (wordgen.go:308-313), also the effect of context cancellation
(wordgen.go:173-178): clear the running flag. -/
def stopEngine (e : Engine) : Engine :=
  { e with running := false }

/-- Popping one slot: the read-cursor increment shared by `Next`
(wordgen.go:243-245) and each `Batch` loop iteration (wordgen.go:285-300). -/
def popSlot (e : Engine) : Engine :=
  { e with bufR := e.bufR + 1 }

/-- Result of one `Next` critical section. -/
inductive NextRes where
  | word (w : List Char)
  | eofR
  | blocked
deriving Repr, DecidableEq

/-- The first critical section of `Next` (wordgen.go:217-250): on an empty
buffer, end-of-sequence if the engine stopped, else block on the condition
variable (releasing the lock); otherwise pop the slot `bufR & bufMask`. -/
def NextFn (e : Engine) : NextRes × Engine :=
  if e.bufW ≤ e.bufR then
    if e.running = false then (NextRes.eofR, e)
    else (NextRes.blocked, e)
  else
    (NextRes.word (e.buf.getD (e.bufR &&& (e.bufSize - 1)) []), popSlot e)

/-- The re-check of `Next` after waking from the condition wait
(wordgen.go:235-245): end-of-sequence if still empty, else pop. -/
def nextAfterWake (e : Engine) : NextRes × Engine :=
  if e.bufW ≤ e.bufR then (NextRes.eofR, e)
  else
    (NextRes.word (e.buf.getD (e.bufR &&& (e.bufSize - 1)) []), popSlot e)

/-- Driving the producer loop to completion (bounded by `fuel`): iterate
`prodStep` until it reports loop exit, then run the goroutine epilogue. -/
def prodRun (now : ℕ) : ℕ → Engine → Engine
  | 0, e => e
  | fuel + 1, e =>
      match prodStep e with
      | (e2, true) => prodRun now fuel e2
      | (e2, false) => prodFinish e2 now

/-- One atomic transition of the engine: a producer iteration, the producer
epilogue, `Stop`/cancellation, a `Next` critical section (first entry or
post-wake re-check), or one `Batch` pop iteration (each pop in the `Batch`
loop is guarded by the emptiness re-check, wordgen.go:265-299). -/
inductive Step : Engine → Engine → Prop where
  | produce (e : Engine) : Step e (prodStep e).1
  | finish (e : Engine) (now : ℕ) : Step e (prodFinish e now)
  | stop (e : Engine) : Step e (stopEngine e)
  | consume (e : Engine) : Step e (NextFn e).2
  | consumeWake (e : Engine) : Step e (nextAfterWake e).2
  | batchPop (e : Engine) : e.bufR < e.bufW → Step e (popSlot e)

/-- Reachability through engine transitions. -/
def Reachable (e0 e : Engine) : Prop :=
  Relation.ReflTransGen Step e0 e

/-- The claimed cursor invariant `Rd ≤ W ≤ Rd + capacity`. -/
def CursorInv (e : Engine) : Prop :=
  e.bufR ≤ e.bufW ∧ e.bufW ≤ e.bufR + e.bufSize

theorem digitsOfNat_length (R L k : ℕ) : (digitsOfNat R L k).length = L := by
  induction L generalizing k with
  | zero => rfl
  | succ L ih => simp [digitsOfNat, ih]

theorem digitsOfNat_lt (R L k : ℕ) (hR : 1 ≤ R) :
    ∀ d ∈ digitsOfNat R L k, d < R := by
  induction L generalizing k with
  | zero => simp [digitsOfNat]
  | succ L ih =>
    intro d hd
    simp only [digitsOfNat, List.mem_cons] at hd
    rcases hd with h | h
    · exact h ▸ Nat.mod_lt _ hR
    · exact ih _ d h

theorem valOfDigits_lt (R : ℕ) (ds : List ℕ) (h : ∀ d ∈ ds, d < R) :
    valOfDigits R ds < R ^ ds.length := by
  induction ds with
  | nil => simp [valOfDigits]
  | cons d ds ih =>
    have hd : d < R := h d (List.mem_cons_self _ _)
    have hds : valOfDigits R ds < R ^ ds.length :=
      ih (fun x hx => h x (List.mem_cons_of_mem _ hx))
    have : d + R * valOfDigits R ds + 1 ≤ R ^ (ds.length + 1) := by
      have h1 : d + 1 ≤ R := hd
      have h2 : R * valOfDigits R ds + R ≤ R * R ^ ds.length := by
        have h := Nat.mul_le_mul_left R (Nat.succ_le_of_lt hds)
        rwa [Nat.mul_succ] at h
      calc d + R * valOfDigits R ds + 1 ≤ R * valOfDigits R ds + R := by omega
        _ ≤ R * R ^ ds.length := h2
        _ = R ^ (ds.length + 1) := by ring
    simpa [valOfDigits, List.length_cons] using this

theorem valOfDigits_cons (R d : ℕ) (ds : List ℕ) :
    valOfDigits R (d :: ds) = d + R * valOfDigits R ds := rfl

theorem valOf_digitsOfNat (R L k : ℕ) (hk : k < R ^ L) :
    valOfDigits R (digitsOfNat R L k) = k := by
  induction L generalizing k with
  | zero =>
    have hk1 : k < 1 := by simpa using hk
    simp only [digitsOfNat, valOfDigits, List.foldr]
    omega
  | succ L ih =>
    have hR : 1 ≤ R := Nat.pos_of_ne_zero (by rintro rfl; simp at hk)
    have hdiv : k / R < R ^ L := by
      rw [Nat.div_lt_iff_lt_mul (by omega)]
      calc k < R ^ (L + 1) := hk
        _ = R ^ L * R := by ring
    simp only [digitsOfNat, valOfDigits_cons, ih _ hdiv]
    exact Nat.mod_add_div k R

theorem digitsOfNat_val (R : ℕ) (ds : List ℕ) (h : ∀ d ∈ ds, d < R) :
    digitsOfNat R ds.length (valOfDigits R ds) = ds := by
  induction ds with
  | nil => rfl
  | cons d ds ih =>
    have hd : d < R := h d (List.mem_cons_self _ _)
    have hmod : (d + R * valOfDigits R ds) % R = d := by
      rw [Nat.add_mul_mod_self_left, Nat.mod_eq_of_lt hd]
    have hdiv : (d + R * valOfDigits R ds) / R = valOfDigits R ds := by
      rw [Nat.add_mul_div_left _ _ (by omega), Nat.div_eq_of_lt hd]
      omega
    simp only [List.length_cons, digitsOfNat, valOfDigits_cons, hmod, hdiv]
    rw [ih (fun x hx => h x (List.mem_cons_of_mem _ hx))]

theorem digitsOfNat_zero (R L : ℕ) : digitsOfNat R L 0 = List.replicate L 0 := by
  induction L with
  | zero => rfl
  | succ L ih => simp [digitsOfNat, List.replicate_succ, ih]

/-- Behaviour of the carry loop on a well-formed counter (`stateLen` equals
the digit-list length, all digits below the radix): it either realizes the
rank increment or zeroes everything and reports that the length must grow. -/
theorem incLoop_wf (R : ℕ) (ds : List ℕ) (h : ∀ d ∈ ds, d < R) :
    incLoop R ds.length ds =
      if valOfDigits R ds + 1 < R ^ ds.length
      then some (digitsOfNat R ds.length (valOfDigits R ds + 1), false)
      else some (List.replicate ds.length 0, true) := by
  induction ds with
  | nil =>
    simp [incLoop, valOfDigits]
  | cons d ds ih =>
    have hd : d < R := h d (List.mem_cons_self _ _)
    have hds : ∀ x ∈ ds, x < R := fun x hx => h x (List.mem_cons_of_mem _ hx)
    have hR : 1 ≤ R := by omega
    have hv : valOfDigits R ds < R ^ ds.length := valOfDigits_lt R ds hds
    simp only [List.length_cons, incLoop]
    by_cases hinc : d + 1 < R
    · -- no carry out of the lowest digit: the rank increment lands in digit 0
      have hv1 : valOfDigits R (d :: ds) + 1 < R ^ (ds.length + 1) := by
        have h2 : R * valOfDigits R ds + R ≤ R * R ^ ds.length := by
          have hle := Nat.mul_le_mul_left R (Nat.succ_le_of_lt hv)
          rwa [Nat.mul_succ] at hle
        have hpow : R ^ (ds.length + 1) = R * R ^ ds.length := by
          rw [pow_succ, Nat.mul_comm]
        rw [valOfDigits_cons, hpow]
        omega
      have hsum : d + R * valOfDigits R ds + 1 = (d + 1) + R * valOfDigits R ds := by
        omega
      have hmod : (valOfDigits R (d :: ds) + 1) % R = d + 1 := by
        rw [valOfDigits_cons, hsum, Nat.add_mul_mod_self_left, Nat.mod_eq_of_lt hinc]
      have hdiv : (valOfDigits R (d :: ds) + 1) / R = valOfDigits R ds := by
        rw [valOfDigits_cons, hsum, Nat.add_mul_div_left _ _ (by omega : 0 < R),
          Nat.div_eq_of_lt hinc]
        omega
      rw [if_pos hinc, if_pos hv1]
      simp only [digitsOfNat, hmod, hdiv, digitsOfNat_val R ds hds]
    · -- digit 0 is `R - 1`: it resets to 0 and the carry moves up
      have hval : valOfDigits R (d :: ds) + 1 = R * (valOfDigits R ds + 1) := by
        rw [valOfDigits_cons, Nat.mul_add, Nat.mul_one]
        omega
      have hpow : R ^ (ds.length + 1) = R * R ^ ds.length := by
        rw [pow_succ, Nat.mul_comm]
      have hcond : (valOfDigits R (d :: ds) + 1 < R ^ (ds.length + 1)) ↔
          (valOfDigits R ds + 1 < R ^ ds.length) := by
        rw [hval, hpow]
        exact Nat.mul_lt_mul_left (by omega)
      rw [if_neg hinc, ih hds]
      by_cases hc : valOfDigits R ds + 1 < R ^ ds.length
      · rw [if_pos hc, if_pos (hcond.mpr hc)]
        have hm : (valOfDigits R (d :: ds) + 1) % R = 0 := by
          rw [hval]
          exact Nat.mul_mod_right R _
        have hd2 : (valOfDigits R (d :: ds) + 1) / R = valOfDigits R ds + 1 := by
          rw [hval]
          exact Nat.mul_div_cancel_left _ (by omega)
        simp only [Option.map_some', digitsOfNat, hm, hd2]
      · rw [if_neg hc, if_neg (fun hh => hc (hcond.mp hh))]
        simp [List.replicate_succ]

/-- `nextState` on the canonical state of length `L` and rank `k`:
it increments the rank, grows the length (restarting at rank 0), or reports
exhaustion when the length would pass `maxLen`, leaving behind the zeroed
digit list with the already-incremented `stateLen`. -/
theorem nextState_counterOfNat (R maxLen L k : ℕ) (hR : 1 ≤ R) (hk : k < R ^ L) :
    nextState R maxLen (counterOfNat R L k) =
      if k + 1 < R ^ L then some (counterOfNat R L (k + 1), false)
      else if maxLen < L + 1 then some (⟨List.replicate L 0, L + 1⟩, true)
      else some (counterOfNat R (L + 1) 0, false) := by
  have hlen : (digitsOfNat R L k).length = L := digitsOfNat_length R L k
  have hdig : ∀ d ∈ digitsOfNat R L k, d < R := digitsOfNat_lt R L k hR
  have hval : valOfDigits R (digitsOfNat R L k) = k := valOf_digitsOfNat R L k hk
  have hloop := incLoop_wf R (digitsOfNat R L k) hdig
  rw [hlen, hval] at hloop
  unfold nextState counterOfNat
  simp only [hlen, hloop]
  by_cases h1 : k + 1 < R ^ L
  · rw [if_pos h1]
    simp [if_pos h1]
  · rw [if_neg h1, if_neg h1]
    by_cases h2 : maxLen < L + 1
    · simp [if_pos h2]
    · simp only [if_neg h2, if_neg h2]
      rw [digitsOfNat_zero]
      rw [← List.replicate_succ', List.replicate_succ]
      simp

/-- The producer's counter trajectory from the state of length `L`, rank
`k`: the rest of block `L` followed by all blocks of larger lengths, for
every sufficiently large fuel (so the run ends by exhaustion). -/
theorem runCounter_eq (R maxLen : ℕ) (hR : 1 ≤ R) :
    ∀ fuel L k, L ≤ maxLen → k < R ^ L → remCount R maxLen L k ≤ fuel →
      runCounter R maxLen fuel (counterOfNat R L k) =
        (List.range' k (R ^ L - k)).map (counterOfNat R L) ++
          enumLens R (L + 1) (maxLen - L) := by
  intro fuel
  induction fuel with
  | zero =>
    intro L k hL hk hrem
    exfalso
    unfold remCount at hrem
    omega
  | succ fuel ih =>
    intro L k hL hk hrem
    have hstep := nextState_counterOfNat R maxLen L k hR hk
    by_cases h1 : k + 1 < R ^ L
    · rw [if_pos h1] at hstep
      have hsplit : R ^ L - k = (R ^ L - (k + 1)) + 1 := by omega
      have hrem2 : remCount R maxLen L (k + 1) ≤ fuel := by
        unfold remCount at hrem ⊢
        omega
      simp only [runCounter, hstep]
      rw [ih L (k + 1) hL h1 hrem2, hsplit, List.range'_succ]
      simp
    · have hone : R ^ L - k = 1 := by omega
      by_cases h2 : maxLen < L + 1
      · rw [if_neg h1, if_pos h2] at hstep
        have hml : maxLen - L = 0 := by omega
        simp only [runCounter, hstep]
        rw [hone, hml]
        simp [enumLens, List.range'_succ]
      · rw [if_neg h1, if_neg h2] at hstep
        have hk0 : 0 < R ^ (L + 1) := pow_pos hR (L + 1)
        have hml : maxLen - L = (maxLen - (L + 1)) + 1 := by omega
        have hrem2 : remCount R maxLen (L + 1) 0 ≤ fuel := by
          unfold remCount at hrem ⊢
          rw [hml] at hrem
          simp only [sumPows] at hrem
          omega
        simp only [runCounter, hstep]
        rw [ih (L + 1) 0 (by omega) hk0 hrem2]
        rw [hone, hml]
        simp only [enumLens, Nat.sub_zero]
        rw [List.range'_succ]
        simp [enumBlock, List.range_eq_range']

theorem length_enumLens (R : ℕ) : ∀ n lo, (enumLens R lo n).length = sumPows R lo n := by
  intro n
  induction n with
  | zero => intro lo; rfl
  | succ n ih =>
    intro lo
    simp [enumLens, sumPows, enumBlock, ih]

theorem mem_enumBlock_iff {R L : ℕ} {c : Counter} :
    c ∈ enumBlock R L ↔ ∃ k, k < R ^ L ∧ c = counterOfNat R L k := by
  simp only [enumBlock, List.mem_map, List.mem_range]
  constructor
  · rintro ⟨k, hk, rfl⟩
    exact ⟨k, hk, rfl⟩
  · rintro ⟨k, hk, rfl⟩
    exact ⟨k, hk, rfl⟩

theorem le_stateLen_of_mem_enumLens {R : ℕ} :
    ∀ n lo (c : Counter), c ∈ enumLens R lo n → lo ≤ c.stateLen := by
  intro n
  induction n with
  | zero => intro lo c hc; simp [enumLens] at hc
  | succ n ih =>
    intro lo c hc
    rcases List.mem_append.mp hc with h | h
    · rcases mem_enumBlock_iff.mp h with ⟨k, _, rfl⟩
      exact le_refl _
    · exact Nat.le_of_succ_le (ih (lo + 1) c h)

theorem nodup_enumBlock (R L : ℕ) : (enumBlock R L).Nodup := by
  refine List.Nodup.map_on ?_ (List.nodup_range _)
  intro k hk j hj hkj
  rw [List.mem_range] at hk hj
  have h1 : valOfDigits R (digitsOfNat R L k) = k := valOf_digitsOfNat R L k hk
  have h2 : valOfDigits R (digitsOfNat R L j) = j := valOf_digitsOfNat R L j hj
  have : digitsOfNat R L k = digitsOfNat R L j := congrArg Counter.state hkj
  rw [← h1, ← h2, this]

theorem nodup_enumLens (R : ℕ) : ∀ n lo, (enumLens R lo n).Nodup := by
  intro n
  induction n with
  | zero => intro lo; simp [enumLens]
  | succ n ih =>
    intro lo
    refine List.Nodup.append (nodup_enumBlock R lo) (ih (lo + 1)) ?_
    intro c hc hc2
    rcases mem_enumBlock_iff.mp hc with ⟨k, _, rfl⟩
    have := le_stateLen_of_mem_enumLens n (lo + 1) _ hc2
    simp [counterOfNat] at this

theorem counterOfNat_mem_enumLens {R : ℕ} :
    ∀ n lo L k, lo ≤ L → L < lo + n → k < R ^ L →
      counterOfNat R L k ∈ enumLens R lo n := by
  intro n
  induction n with
  | zero => intro lo L k h1 h2 _; omega
  | succ n ih =>
    intro lo L k h1 h2 hk
    rw [enumLens, List.mem_append]
    by_cases hL : L = lo
    · subst hL
      exact Or.inl (mem_enumBlock_iff.mpr ⟨k, hk, rfl⟩)
    · exact Or.inr (ih (lo + 1) L k (by omega) (by omega) hk)

/-- C1: for every valid configuration (radix `R ≥ 1`, `minLen ≤ maxLen`), a
full unconstrained run (started at the all-zero state of length `minLen`,
with any fuel at least the claimed total, so the run ends by exhaustion)
visits exactly the states of lengths `minLen … maxLen` in length-major,
odometer-minor order; there are `Σ_{L=minLen}^{maxLen} R^L` of them, they
are pairwise distinct, and every digit-state in range occurs. -/
theorem full_run_enumeration (R minLen maxLen fuel : ℕ) (hR : 1 ≤ R)
    (hmm : minLen ≤ maxLen) (hf : totalCount R minLen maxLen ≤ fuel) :
    runCounter R maxLen fuel ⟨List.replicate minLen 0, minLen⟩ =
        enumAll R minLen maxLen ∧
      (enumAll R minLen maxLen).length = totalCount R minLen maxLen ∧
      (enumAll R minLen maxLen).Nodup ∧
      ∀ ds : List ℕ, (∀ d ∈ ds, d < R) → minLen ≤ ds.length →
        ds.length ≤ maxLen → Counter.mk ds ds.length ∈ enumAll R minLen maxLen := by
  have hc0 : (⟨List.replicate minLen 0, minLen⟩ : Counter) = counterOfNat R minLen 0 := by
    simp [counterOfNat, digitsOfNat_zero]
  have hsplit : maxLen + 1 - minLen = (maxLen - minLen) + 1 := by omega
  have htot : remCount R maxLen minLen 0 = totalCount R minLen maxLen := by
    unfold remCount totalCount
    rw [hsplit]
    simp [sumPows]
  refine ⟨?_, length_enumLens R _ _, nodup_enumLens R _ _, ?_⟩
  · rw [hc0, runCounter_eq R maxLen hR fuel minLen 0 hmm (pow_pos hR _) (by omega)]
    unfold enumAll
    rw [hsplit]
    simp [enumLens, enumBlock, List.range_eq_range']
  · intro ds hds hmin hmax
    have hrt : Counter.mk ds ds.length = counterOfNat R ds.length (valOfDigits R ds) := by
      unfold counterOfNat
      rw [digitsOfNat_val R ds hds]
    rw [hrt]
    exact counterOfNat_mem_enumLens _ _ _ _ hmin (by omega) (valOfDigits_lt R ds hds)

/-- Witness for C1 at the spec's concrete example `R = 3`, lengths 1–2. -/
theorem full_run_enumeration_witness :
    runCounter 3 2 12 ⟨List.replicate 1 0, 1⟩ = enumAll 3 1 2 ∧
      (enumAll 3 1 2).length = totalCount 3 1 2 ∧
      (enumAll 3 1 2).Nodup ∧
      ∀ ds : List ℕ, (∀ d ∈ ds, d < 3) → 1 ≤ ds.length →
        ds.length ≤ 2 → Counter.mk ds ds.length ∈ enumAll 3 1 2 :=
  full_run_enumeration 3 1 2 12 (by decide) (by decide) (by decide)

theorem map_getD_range {α : Type} (ds : List α) (dflt : α) :
    (List.range ds.length).map (fun i => ds.getD i dflt) = ds := by
  induction ds with
  | nil => rfl
  | cons d ds ih =>
    rw [List.length_cons, List.range_succ_eq_map, List.map_cons, List.map_map]
    have hfun : ∀ i ∈ List.range ds.length,
        ((fun i => (d :: ds).getD i dflt) ∘ Nat.succ) i = ds.getD i dflt := by
      intro i _
      simp [Function.comp, List.getD_cons_succ]
    rw [List.map_congr_left hfun, ih]
    simp [List.getD_cons_zero]

/-- C2: the slot-filling loop writes `charset[d[0]] … charset[d[L-1]]`, in
index order with no reversal; for charset `abc`, lengths 1–2, the full
produced word sequence is exactly the 12 claimed items, and one more unit of
fuel adds nothing (the run has ended by exhaustion, i.e. end-of-sequence
follows). -/
theorem decode_order_and_example :
    (∀ (cs : List Char) (ds : List ℕ),
        decodeWord cs ⟨ds, ds.length⟩ = ds.map (fun d => cs.getD d 'a')) ∧
      (runCounter 3 2 12 ⟨[0], 1⟩).map (decodeWord ['a', 'b', 'c']) =
        [['a'], ['b'], ['c'],
         ['a', 'a'], ['b', 'a'], ['c', 'a'],
         ['a', 'b'], ['b', 'b'], ['c', 'b'],
         ['a', 'c'], ['b', 'c'], ['c', 'c']] ∧
      runCounter 3 2 13 ⟨[0], 1⟩ = runCounter 3 2 12 ⟨[0], 1⟩ := by
  refine ⟨?_, by decide, by decide⟩
  intro cs ds
  unfold decodeWord
  conv_rhs => rw [← map_getD_range ds 0]
  rw [List.map_map]
  rfl

theorem drop_range' (k : ℕ) : ∀ (s n : ℕ), (List.range' s n).drop k = List.range' (s + k) (n - k) := by
  induction k with
  | zero => intro s n; simp
  | succ k ih =>
    intro s n
    cases n with
    | zero => simp [List.range']
    | succ m =>
      rw [List.range'_succ]
      simpa [Nat.add_comm, Nat.add_assoc, Nat.add_left_comm] using ih (s + 1) m

/-- Dropping the rank of the state of length `lo + m`, rank `k`, from the
length-major enumeration leaves exactly its suffix starting at that state. -/
theorem drop_enumLens (R : ℕ) :
    ∀ m lo n k, m < n → k < R ^ (lo + m) →
      (enumLens R lo n).drop (sumPows R lo m + k) =
        (List.range' k (R ^ (lo + m) - k)).map (counterOfNat R (lo + m)) ++
          enumLens R (lo + m + 1) (n - m - 1) := by
  intro m
  induction m with
  | zero =>
    intro lo n k hm hk
    cases n with
    | zero => omega
    | succ n2 =>
      rw [enumLens]
      simp only [sumPows, Nat.zero_add, Nat.add_zero] at hk ⊢
      rw [List.drop_append_of_le_length]
      · rw [enumBlock, ← List.map_drop, List.range_eq_range', drop_range']
        simp
      · simp only [enumBlock, List.length_map, List.length_range]
        omega
  | succ m ih =>
    intro lo n k hm hk
    cases n with
    | zero => omega
    | succ n2 =>
      rw [enumLens]
      have hlen : (enumBlock R lo).length = R ^ lo := by
        simp [enumBlock]
      have hsum : sumPows R lo (m + 1) + k = (enumBlock R lo).length + (sumPows R (lo + 1) m + k) := by
        rw [hlen]
        simp [sumPows]
        omega
      rw [hsum, ← List.drop_drop, List.drop_left]
      have hk2 : k < R ^ (lo + 1 + m) := by
        have : lo + 1 + m = lo + (m + 1) := by omega
        rw [this]
        exact hk
      rw [ih (lo + 1) n2 k (by omega) hk2]
      have h1 : lo + 1 + m = lo + (m + 1) := by omega
      have h2 : n2 - m - 1 = n2 + 1 - (m + 1) - 1 := by omega
      rw [h1, h2]

theorem runCounter_succ_drop_one (R maxLen fuel : ℕ) (c : Counter) :
    runCounter R maxLen (fuel + 1) c = c :: (runCounter R maxLen (fuel + 1) c).drop 1 := by
  conv_lhs => rw [runCounter]
  conv_rhs => rw [runCounter]
  simp

/-- C3: started from a valid initial state (length `L`, rank `k`), the run
produces that state first and then exactly the items of the unconstrained
enumeration strictly following it in odometer order (no lower bound is
re-imposed); for charset `abc`, initial state `ba`, lengths 1–2, the first
five produced words are `ba, ca, ab, bb, cb`. -/
theorem initial_state_run (R minLen maxLen L k fuel : ℕ) (hR : 1 ≤ R)
    (hminL : minLen ≤ L) (hLmax : L ≤ maxLen) (hk : k < R ^ L)
    (hf : remCount R maxLen L k ≤ fuel) :
    runCounter R maxLen fuel (counterOfNat R L k) =
        counterOfNat R L k ::
          (enumAll R minLen maxLen).drop (sumPows R minLen (L - minLen) + k + 1) ∧
      ((runCounter 3 2 8 ⟨[1, 0], 2⟩).map (decodeWord ['a', 'b', 'c'])).take 5 =
        [['b', 'a'], ['c', 'a'], ['a', 'b'], ['b', 'b'], ['c', 'b']] := by
  refine ⟨?_, by decide⟩
  have hrun := runCounter_eq R maxLen hR fuel L k hLmax hk hf
  have hm : minLen + (L - minLen) = L := by omega
  have hdrop := drop_enumLens R (L - minLen) minLen (maxLen + 1 - minLen) k
    (by omega) (by rw [hm]; exact hk)
  rw [hm] at hdrop
  have hcnt : maxLen + 1 - minLen - (L - minLen) - 1 = maxLen - L := by omega
  rw [hcnt] at hdrop
  have key : (enumAll R minLen maxLen).drop (sumPows R minLen (L - minLen) + k) =
      runCounter R maxLen fuel (counterOfNat R L k) := by
    unfold enumAll
    rw [hdrop, hrun]
  obtain ⟨fuel2, rfl⟩ : ∃ f2, fuel = f2 + 1 := by
    refine ⟨fuel - 1, ?_⟩
    unfold remCount at hf
    omega
  have h2 : (enumAll R minLen maxLen).drop (sumPows R minLen (L - minLen) + k + 1) =
      (runCounter R maxLen (fuel2 + 1) (counterOfNat R L k)).drop 1 := by
    rw [← key, List.drop_drop]
  rw [h2]
  exact runCounter_succ_drop_one R maxLen fuel2 (counterOfNat R L k)

/-- C5 counterexample: with charset of 3 symbols and `maxLen = 1`, advancing
the last state `[2]` returns `Exhausted` and leaves behind the zeroed state
with `stateLen` already incremented to 2; calling advance again on that very
state does NOT return `Exhausted` — it succeeds, so the counter's exhaustion
signal is not idempotent (the system only avoids this because the producer
loop never calls advance again). -/
theorem exhausted_not_idempotent :
    nextState 3 1 ⟨[2], 1⟩ = some (⟨[0], 2⟩, true) ∧
      nextState 3 1 ⟨[0], 2⟩ = some (⟨[1], 2⟩, false) := by
  decide

/-- C5 (amended): on the states an actual run visits (length `L = stateLen`,
rank `k`, `L ≤ maxLen`), advance reports `Exhausted` exactly when the carry
would push the length past `maxLen` (all digits maximal and `L = maxLen`),
and the producer loop treats that signal as terminal: the run stops at that
state.  Idempotency of repeated `advance` calls does not hold (see the
counterexample); termination comes from the loop never calling again. -/
theorem advance_exhaust_iff (R maxLen L k : ℕ) (hR : 1 ≤ R) (hk : k < R ^ L)
    (hL : L ≤ maxLen) :
    ((nextState R maxLen (counterOfNat R L k)).map Prod.snd = some true ↔
        k + 1 = R ^ L ∧ L = maxLen) ∧
      (k + 1 = R ^ L → L = maxLen →
        ∀ fuel, runCounter R maxLen (fuel + 1) (counterOfNat R L k) =
          [counterOfNat R L k]) := by
  have hstep := nextState_counterOfNat R maxLen L k hR hk
  constructor
  · rw [hstep]
    by_cases h1 : k + 1 < R ^ L
    · rw [if_pos h1]
      simp
      omega
    · rw [if_neg h1]
      by_cases h2 : maxLen < L + 1
      · rw [if_pos h2]
        simp
        omega
      · rw [if_neg h2]
        simp
        omega
  · intro hlast hmax fuel
    rw [if_neg (by omega), if_pos (by omega)] at hstep
    rw [runCounter, hstep]

/-- Witness for C5: `R = 3`, `maxLen = 1`, the state `[2]` of rank 2. -/
theorem advance_exhaust_iff_witness :
    ((nextState 3 1 (counterOfNat 3 1 2)).map Prod.snd = some true ↔
        2 + 1 = 3 ^ 1 ∧ 1 = 1) ∧
      (2 + 1 = 3 ^ 1 → 1 = 1 →
        ∀ fuel, runCounter 3 1 (fuel + 1) (counterOfNat 3 1 2) =
          [counterOfNat 3 1 2]) :=
  advance_exhaust_iff 3 1 1 2 (by decide) (by decide) (by decide)

theorem filter_le_range (k : ℕ) :
    ∀ m, (List.range m).filter (fun i => decide (i ≤ k)) = List.range (min m (k + 1)) := by
  intro m
  induction m with
  | zero => rfl
  | succ m ih =>
    rw [List.range_succ, List.filter_append, ih]
    by_cases hm : m ≤ k
    · have h1 : min m (k + 1) = m := by omega
      have h2 : min (m + 1) (k + 1) = m + 1 := by omega
      rw [h1, h2, List.range_succ]
      simp [hm]
    · have h1 : min m (k + 1) = k + 1 := by omega
      have h2 : min (m + 1) (k + 1) = k + 1 := by omega
      rw [h1, h2]
      simp [hm]

/-- For `uint64` values, `bits.Len64` is `log₂ + 1`. -/
theorem bitsLen64_eq (n : ℕ) (h0 : 0 < n) (hlt : n < 2 ^ 64) :
    bitsLen64 n = Nat.log2 n + 1 := by
  unfold bitsLen64
  have hL : Nat.log2 n < 64 := by
    rw [Nat.log2_lt (by omega)]
    exact hlt
  have hcong : ∀ i ∈ List.range 64,
      (decide (2 ^ i ≤ n)) = (decide (i ≤ Nat.log2 n)) := by
    intro i _
    rcases Nat.le_log2 (show n ≠ 0 by omega) (k := i) with h
    by_cases hle : 2 ^ i ≤ n
    · simp [hle, h.mpr hle]
    · have : ¬ i ≤ Nat.log2 n := fun hc => hle (h.mp hc)
      simp [hle, this]
  rw [List.filter_congr hcong, filter_le_range, Nat.min_eq_right (by omega),
    List.length_range]

/-- Go's power-of-two test `n & (n-1) == 0` is exact for `n ≠ 0`. -/
theorem land_pred_eq_zero_iff (n : ℕ) (hn : n ≠ 0) :
    n &&& (n - 1) = 0 ↔ ∃ k, n = 2 ^ k := by
  constructor
  · intro h
    refine ⟨Nat.log2 n, ?_⟩
    by_contra hne
    set k := Nat.log2 n with hk
    have h1 : 2 ^ k ≤ n := Nat.log2_self_le hn
    have h2 : n < 2 ^ (k + 1) := Nat.lt_log2_self
    have hgt : 2 ^ k < n := lt_of_le_of_ne h1 (fun he => hne he.symm)
    have hp : 0 < 2 ^ k := pow_pos (by omega) k
    have hpow : 2 ^ (k + 1) = 2 * 2 ^ k := by
      rw [pow_succ, Nat.mul_comm]
    rw [hpow] at h2
    have hdivn : n / 2 ^ k = 1 := by
      have hlo : 1 ≤ n / 2 ^ k := by
        rw [Nat.le_div_iff_mul_le hp, Nat.one_mul]
        exact h1
      have hhi : n / 2 ^ k < 2 := by
        rw [Nat.div_lt_iff_lt_mul hp]
        omega
      omega
    have hdivn1 : (n - 1) / 2 ^ k = 1 := by
      have hlo : 1 ≤ (n - 1) / 2 ^ k := by
        rw [Nat.le_div_iff_mul_le hp, Nat.one_mul]
        omega
      have hhi : (n - 1) / 2 ^ k < 2 := by
        rw [Nat.div_lt_iff_lt_mul hp]
        omega
      omega
    have ht1 : n.testBit k = true := by
      rw [Nat.testBit_to_div_mod, hdivn]
      rfl
    have ht2 : (n - 1).testBit k = true := by
      rw [Nat.testBit_to_div_mod, hdivn1]
      rfl
    have hbit : (n &&& (n - 1)).testBit k = true := by
      rw [Nat.testBit_land, ht1, ht2]
      rfl
    rw [h, Nat.zero_testBit] at hbit
    exact Bool.false_ne_true hbit
  · rintro ⟨k, rfl⟩
    apply Nat.eq_of_testBit_eq
    intro i
    rw [Nat.testBit_land, Nat.zero_testBit, Nat.testBit_two_pow,
      Nat.testBit_two_pow_sub_one]
    rcases eq_or_ne k i with rfl | hne
    · simp
    · simp [hne]

/-- C4 (amended): for requested sizes in the non-overflowing range, the
capacity chosen by `roundToNearestPowerOfTwo` is a power of two at minimal
distance from the request — the *nearest* power of two, not the next one up,
so it can be smaller than the request (see the counterexample). -/
theorem buffer_capacity_nearest_pow2 (n : ℕ) (h0 : 0 < n) (hlt : n < 2 ^ 63) :
    ∃ k, roundToNearestPowerOfTwo n = 2 ^ k ∧
      ∀ j, Nat.dist n (2 ^ k) ≤ Nat.dist n (2 ^ j) := by
  have h64 : (2 : ℕ) ^ 63 < 2 ^ 64 := by norm_num
  by_cases hp : n &&& (n - 1) = 0
  · obtain ⟨k, hk⟩ := (land_pred_eq_zero_iff n (by omega)).mp hp
    refine ⟨k, ?_, ?_⟩
    · unfold roundToNearestPowerOfTwo
      rw [if_neg (by omega), if_pos hp]
      exact hk
    · intro j
      rw [← hk, Nat.dist_self]
      exact Nat.zero_le _
  · set L := Nat.log2 n with hL
    have h1 : 2 ^ L ≤ n := Nat.log2_self_le (by omega)
    have h2 : n < 2 ^ (L + 1) := Nat.lt_log2_self
    have hblen : bitsLen64 n = L + 1 := by
      rw [bitsLen64_eq n (by omega) (by omega), hL]
    have hL63 : L < 63 := by
      rw [hL, Nat.log2_lt (by omega)]
      exact hlt
    have hnext_lt : 2 ^ (L + 1) < 2 ^ 64 := Nat.pow_lt_pow_right (by omega) (by omega)
    have hprev : 2 ^ (L + 1) / 2 = 2 ^ L := by
      rw [pow_succ, Nat.mul_div_cancel _ (by omega)]
    have hsub1 : sub64 n (2 ^ L) = n - 2 ^ L := by
      unfold sub64
      have he : n + 2 ^ 64 - 2 ^ L = (n - 2 ^ L) + 2 ^ 64 := by omega
      rw [he, Nat.add_mod_right]
      exact Nat.mod_eq_of_lt (by omega)
    have hsub2 : sub64 (2 ^ (L + 1)) n = 2 ^ (L + 1) - n := by
      unfold sub64
      have he : 2 ^ (L + 1) + 2 ^ 64 - n = (2 ^ (L + 1) - n) + 2 ^ 64 := by omega
      rw [he, Nat.add_mod_right]
      exact Nat.mod_eq_of_lt (by omega)
    have hval : roundToNearestPowerOfTwo n =
        if n - 2 ^ L < 2 ^ (L + 1) - n then 2 ^ L else 2 ^ (L + 1) := by
      unfold roundToNearestPowerOfTwo
      rw [if_neg (by omega), if_neg hp]
      simp only [hblen, Nat.mod_eq_of_lt hnext_lt, hprev, hsub1, hsub2]
    rw [hval]
    by_cases hc : n - 2 ^ L < 2 ^ (L + 1) - n
    · refine ⟨L, by rw [if_pos hc], ?_⟩
      intro j
      rcases le_or_lt j L with hj | hj
      · have hjl : 2 ^ j ≤ 2 ^ L := Nat.pow_le_pow_right (by omega) hj
        simp only [Nat.dist]
        omega
      · have hjl : 2 ^ (L + 1) ≤ 2 ^ j := Nat.pow_le_pow_right (by omega) (by omega)
        simp only [Nat.dist]
        omega
    · refine ⟨L + 1, by rw [if_neg hc], ?_⟩
      intro j
      rcases le_or_lt j L with hj | hj
      · have hjl : 2 ^ j ≤ 2 ^ L := Nat.pow_le_pow_right (by omega) hj
        simp only [Nat.dist]
        omega
      · have hjl : 2 ^ (L + 1) ≤ 2 ^ j := Nat.pow_le_pow_right (by omega) (by omega)
        simp only [Nat.dist]
        omega

/-- Witness for C4's amended theorem at the requested size 5
(nearest power of two is 4). -/
theorem buffer_capacity_nearest_pow2_witness :
    ∃ k, roundToNearestPowerOfTwo 5 = 2 ^ k ∧
      ∀ j, Nat.dist 5 (2 ^ k) ≤ Nat.dist 5 (2 ^ j) :=
  buffer_capacity_nearest_pow2 5 (by decide) (by decide)

/-- C4 counterexample: requesting a buffer of 5 slots yields a capacity of
4 — the construction-time capacity is *smaller* than the requested size,
refuting "next power of two greater than or equal to n". -/
theorem buffer_capacity_counterexample :
    NewWordGen ⟨['a', 'b', 'c'], [], 1, 2, 5⟩ =
        Except.ok ⟨['a', 'b', 'c'], 1, 2, [0], 4⟩ ∧
      (4 : ℕ) < 5 := by
  exact ⟨rfl, by decide⟩

theorem bIndexOf_eq_none_iff (cs : List Char) (c : Char) :
    bIndexOf cs c = none ↔ c ∉ cs := by
  induction cs with
  | nil => simp [bIndexOf]
  | cons x rest ih =>
    rw [bIndexOf]
    by_cases hx : x = c
    · subst hx
      simp
    · rw [if_neg hx]
      simp only [Option.map_eq_none', ih, List.mem_cons]
      constructor
      · intro h hc
        rcases hc with hc | hc
        · exact hx hc.symm
        · exact h hc
      · intro h hc
        exact h (Or.inr hc)

theorem decodeInit_error_iff (cs : List Char) :
    ∀ (init : List Char) (i : ℕ),
      (∃ e, decodeInit cs init i = Except.error e) ↔ ∃ c ∈ init, c ∉ cs := by
  intro init
  induction init with
  | nil =>
    intro i
    simp [decodeInit]
  | cons c rest ih =>
    intro i
    rw [decodeInit]
    cases hb : bIndexOf cs c with
    | none =>
      have hc : c ∉ cs := (bIndexOf_eq_none_iff cs c).mp hb
      simp only []
      constructor
      · intro _
        exact ⟨c, List.mem_cons_self c rest, hc⟩
      · intro _
        exact ⟨ConfigError.initBadChar c i, rfl⟩
    | some n =>
      have hc : c ∈ cs := by
        by_contra h
        rw [← bIndexOf_eq_none_iff cs c] at h
        rw [h] at hb
        exact Option.noConfusion hb
      cases hd : decodeInit cs rest (i + 1) with
      | error e2 =>
        have hr : ∃ x ∈ rest, x ∉ cs := (ih (i + 1)).mp ⟨e2, hd⟩
        simp only [hd, Except.map_error]
        constructor
        · intro _
          obtain ⟨x, hx, hxc⟩ := hr
          exact ⟨x, List.mem_cons_of_mem c hx, hxc⟩
        · intro _
          exact ⟨e2, rfl⟩
      | ok ds =>
        have hr : ¬ ∃ x ∈ rest, x ∉ cs := fun h => by
          obtain ⟨e2, he⟩ := (ih (i + 1)).mpr h
          rw [he] at hd
          exact Except.noConfusion hd
        simp only [hd, Except.map_ok]
        constructor
        · rintro ⟨e, he⟩
          exact Except.noConfusion he
        · rintro ⟨x, hx, hxc⟩
          rcases List.mem_cons.mp hx with rfl | hx2
          · exact absurd hc hxc
          · exact absurd ⟨x, hx2, hxc⟩ hr

theorem findDup_eq_none_iff :
    ∀ (cs seen : List Char) (i : ℕ),
      findDup seen cs i = none ↔ (cs.Nodup ∧ ∀ c ∈ cs, c ∉ seen) := by
  intro cs
  induction cs with
  | nil =>
    intro seen i
    simp [findDup]
  | cons c rest ih =>
    intro seen i
    rw [findDup]
    by_cases hc : c ∈ seen
    · rw [if_pos hc]
      constructor
      · intro h
        exact Option.noConfusion h
      · rintro ⟨_, hall⟩
        exact absurd hc (hall c (List.mem_cons_self c rest))
    · rw [if_neg hc, ih (c :: seen) (i + 1)]
      constructor
      · rintro ⟨hnd, hall⟩
        have hcr : c ∉ rest := fun hmem =>
          (hall c hmem) (List.mem_cons_self c seen)
        refine ⟨List.nodup_cons.mpr ⟨hcr, hnd⟩, ?_⟩
        intro x hx
        rcases List.mem_cons.mp hx with rfl | hx2
        · exact hc
        · intro hxs
          exact (hall x hx2) (List.mem_cons_of_mem c hxs)
      · rintro ⟨hnd, hall⟩
        obtain ⟨hcr, hrest⟩ := List.nodup_cons.mp hnd
        refine ⟨hrest, ?_⟩
        intro x hx hxs
        rcases List.mem_cons.mp hxs with rfl | hxs2
        · exact hcr hx
        · exact (hall x (List.mem_cons_of_mem c hx)) hxs2

/-- C8 (amended): construction fails exactly when — after default
substitution — the effective `MinLen` exceeds the effective `MaxLen`, the
effective charset has a duplicate symbol, or a supplied initial state is too
short, too long, or contains a symbol outside the charset.  An *empty*
charset never fails: the 62-symbol default replaces it before validation.
A duplicated charset reports the offending position (second conjunct: for
`aba` the error names index 2). -/
theorem construction_failure_iff (cfg : Config) :
    ((∃ err, NewWordGen cfg = Except.error err) ↔
      ((if cfg.maxLen = 0 then 10 else cfg.maxLen) <
          (if cfg.minLen = 0 then 8 else cfg.minLen) ∨
        ¬ (if cfg.charset = [] then defaultCharsetL else cfg.charset).Nodup ∨
        (cfg.initialState ≠ [] ∧
          (cfg.initialState.length < (if cfg.minLen = 0 then 8 else cfg.minLen) ∨
            (if cfg.maxLen = 0 then 10 else cfg.maxLen) < cfg.initialState.length ∨
            ∃ c ∈ cfg.initialState,
              c ∉ (if cfg.charset = [] then defaultCharsetL else cfg.charset))))) ∧
      NewWordGen ⟨['a', 'b', 'a'], [], 1, 2, 1⟩ =
        Except.error (ConfigError.dupInCharset 2) := by
  refine ⟨?_, rfl⟩
  unfold NewWordGen
  set minL := (if cfg.minLen = 0 then 8 else cfg.minLen) with hminL
  set maxL := (if cfg.maxLen = 0 then 10 else cfg.maxLen) with hmaxL
  set cs := (if cfg.charset = [] then defaultCharsetL else cfg.charset) with hcs
  have hcsne : cs ≠ [] := by
    rw [hcs]
    by_cases h : cfg.charset = []
    · rw [if_pos h]
      decide
    · rw [if_neg h]
      exact h
  by_cases h1 : maxL < minL
  · rw [if_pos h1]
    constructor
    · intro _
      exact Or.inl h1
    · intro _
      exact ⟨ConfigError.minGtMax, rfl⟩
  · rw [if_neg h1]
    rw [if_neg (by simpa [List.length_eq_zero] using hcsne)]
    cases hfd : findDup [] cs 0 with
    | some i =>
      have hnd : ¬ cs.Nodup := by
        intro hnodup
        have hnone := (findDup_eq_none_iff cs [] 0).mpr ⟨hnodup, by simp⟩
        rw [hnone] at hfd
        exact Option.noConfusion hfd
      constructor
      · intro _
        exact Or.inr (Or.inl hnd)
      · intro _
        exact ⟨ConfigError.dupInCharset i, rfl⟩
    | none =>
      have hnd : cs.Nodup := ((findDup_eq_none_iff cs [] 0).mp hfd).1
      by_cases hinit : 0 < cfg.initialState.length
      · rw [if_pos hinit]
        have hine : cfg.initialState ≠ [] := by
          intro hh
          rw [hh] at hinit
          exact absurd hinit (by simp)
        by_cases h2 : cfg.initialState.length < minL
        · rw [if_pos h2]
          constructor
          · intro _
            exact Or.inr (Or.inr ⟨hine, Or.inl h2⟩)
          · intro _
            exact ⟨ConfigError.initTooShort, rfl⟩
        · rw [if_neg h2]
          by_cases h3 : maxL < cfg.initialState.length
          · rw [if_pos h3]
            constructor
            · intro _
              exact Or.inr (Or.inr ⟨hine, Or.inr (Or.inl h3)⟩)
            · intro _
              exact ⟨ConfigError.initTooLong, rfl⟩
          · rw [if_neg h3]
            cases hdec : decodeInit cs cfg.initialState 0 with
            | error e =>
              have hbad : ∃ c ∈ cfg.initialState, c ∉ cs :=
                (decodeInit_error_iff cs cfg.initialState 0).mp ⟨e, hdec⟩
              constructor
              · intro _
                exact Or.inr (Or.inr ⟨hine, Or.inr (Or.inr hbad)⟩)
              · intro _
                exact ⟨e, rfl⟩
            | ok ds =>
              have hgood : ¬ ∃ c ∈ cfg.initialState, c ∉ cs := fun h => by
                obtain ⟨e, he⟩ := (decodeInit_error_iff cs cfg.initialState 0).mpr h
                rw [he] at hdec
                exact Except.noConfusion hdec
              constructor
              · rintro ⟨err, herr⟩
                exact Except.noConfusion herr
              · rintro (h | h | ⟨_, h | h | h⟩)
                · exact absurd h h1
                · exact absurd hnd h
                · exact absurd h h2
                · exact absurd h h3
                · exact absurd h hgood
      · rw [if_neg hinit]
        constructor
        · rintro ⟨err, herr⟩
          exact Except.noConfusion herr
        · rintro (h | h | ⟨hne, _⟩)
          · exact absurd h h1
          · exact absurd hnd h
          · exact absurd (List.length_eq_zero.mp (by omega)) hne

/-- C8 counterexample: an empty charset does not make construction fail —
the 62-symbol default is substituted and `NewWordGen` succeeds, refuting
"fails exactly when the charset is empty, …". -/
theorem empty_charset_succeeds :
    NewWordGen ⟨[], [], 1, 2, 4⟩ = Except.ok ⟨defaultCharsetL, 1, 2, [0], 4⟩ := by
  rfl

/-- C10: with `MinLen = 0` and any `0 < MaxLen < 8`, construction fails with
the min-greater-than-max error for every charset, initial state and buffer
size: the default `MinLen` of 8 is substituted before the `MinLen ≤ MaxLen`
validation, even though the caller never set a minimum. -/
theorem minlen_default_conflict (cs init : List Char) (bs maxL : ℕ)
    (h1 : 0 < maxL) (h2 : maxL < 8) :
    NewWordGen ⟨cs, init, 0, maxL, bs⟩ = Except.error ConfigError.minGtMax := by
  unfold NewWordGen
  simp only [if_true,
    show (if maxL = 0 then 10 else maxL) = maxL from if_neg (by omega)]
  rw [if_pos (show maxL < 8 from h2)]

/-- Witness for C10 at `MaxLen = 5`. -/
theorem minlen_default_conflict_witness :
    NewWordGen ⟨['a'], [], 0, 5, 1⟩ = Except.error ConfigError.minGtMax :=
  minlen_default_conflict ['a'] [] 1 5 (by decide) (by decide)

/-- Per-transition cursor facts: capacity is constant, cursors only grow,
the write cursor grows only by one and only when the buffer has room, and
the read cursor grows only by one and only when the buffer is non-empty. -/
theorem step_facts {a b : Engine} (h : Step a b) :
    a.bufSize = b.bufSize ∧
      a.bufR ≤ b.bufR ∧ a.bufW ≤ b.bufW ∧
      (b.bufW ≠ a.bufW →
        a.bufW - a.bufR < a.bufSize ∧ b.bufW = a.bufW + 1 ∧ b.bufR = a.bufR) ∧
      (b.bufR ≠ a.bufR →
        a.bufR < a.bufW ∧ b.bufR = a.bufR + 1 ∧ b.bufW = a.bufW) := by
  cases h with
  | produce =>
    unfold prodStep
    split
    · exact ⟨rfl, le_refl _, le_refl _, fun hc => absurd rfl hc, fun hc => absurd rfl hc⟩
    · split
      · exact ⟨rfl, le_refl _, le_refl _, fun hc => absurd rfl hc,
          fun hc => absurd rfl hc⟩
      · split <;>
          exact ⟨rfl, le_refl _, Nat.le_succ _, fun _ => ⟨by omega, rfl, rfl⟩,
            fun hc => absurd rfl hc⟩
  | finish now =>
    exact ⟨rfl, le_refl _, le_refl _, fun hc => absurd rfl hc, fun hc => absurd rfl hc⟩
  | stop =>
    exact ⟨rfl, le_refl _, le_refl _, fun hc => absurd rfl hc, fun hc => absurd rfl hc⟩
  | consume =>
    unfold NextFn
    split
    · split
      · exact ⟨rfl, le_refl _, le_refl _, fun hc => absurd rfl hc,
          fun hc => absurd rfl hc⟩
      · exact ⟨rfl, le_refl _, le_refl _, fun hc => absurd rfl hc,
          fun hc => absurd rfl hc⟩
    · exact ⟨rfl, Nat.le_succ _, le_refl _, fun hc => absurd rfl hc,
        fun _ => ⟨by omega, rfl, rfl⟩⟩
  | consumeWake =>
    unfold nextAfterWake
    split
    · exact ⟨rfl, le_refl _, le_refl _, fun hc => absurd rfl hc, fun hc => absurd rfl hc⟩
    · exact ⟨rfl, Nat.le_succ _, le_refl _, fun hc => absurd rfl hc,
        fun _ => ⟨by omega, rfl, rfl⟩⟩
  | batchPop hlt =>
    exact ⟨rfl, Nat.le_succ _, le_refl _, fun hc => absurd rfl hc,
      fun _ => ⟨hlt, rfl, rfl⟩⟩

theorem step_preserves_inv {a b : Engine} (h : Step a b) (hi : CursorInv a) :
    CursorInv b := by
  obtain ⟨hs, hr, hw, hwg, hrg⟩ := step_facts h
  unfold CursorInv at hi ⊢
  by_cases hbw : b.bufW = a.bufW
  · by_cases hbr : b.bufR = a.bufR
    · omega
    · have := hrg hbr
      omega
  · have := hwg hbw
    omega

/-- C6: in every engine state reachable from a state satisfying
`Rd ≤ W ≤ Rd + capacity` (e.g. the reset state of `Run`), that invariant
still holds; across every single transition both cursors are monotonically
non-decreasing, the write cursor moves only when `W − Rd < capacity`, and
the read cursor moves only when `Rd < W`. -/
theorem cursor_invariants (e0 e a b : Engine) (h0 : CursorInv e0)
    (hre : Reachable e0 e) (hab : Step a b) :
    CursorInv e ∧
      (a.bufR ≤ b.bufR ∧ a.bufW ≤ b.bufW) ∧
      (b.bufW ≠ a.bufW → a.bufW - a.bufR < a.bufSize) ∧
      (b.bufR ≠ a.bufR → a.bufR < a.bufW) := by
  refine ⟨?_, ⟨(step_facts hab).2.1, (step_facts hab).2.2.1⟩,
    fun h => ((step_facts hab).2.2.2.1 h).1,
    fun h => ((step_facts hab).2.2.2.2 h).1⟩
  induction hre with
  | refl => exact h0
  | tail _ hstep ih => exact step_preserves_inv hstep ih

/-- Witness for C6 at a freshly constructed engine and a `Stop` step. -/
theorem cursor_invariants_witness :
    CursorInv (mkEngine ⟨['a'], 1, 1, [0], 2⟩) ∧
      ((mkEngine ⟨['a'], 1, 1, [0], 2⟩).bufR ≤
          (stopEngine (mkEngine ⟨['a'], 1, 1, [0], 2⟩)).bufR ∧
        (mkEngine ⟨['a'], 1, 1, [0], 2⟩).bufW ≤
          (stopEngine (mkEngine ⟨['a'], 1, 1, [0], 2⟩)).bufW) ∧
      ((stopEngine (mkEngine ⟨['a'], 1, 1, [0], 2⟩)).bufW ≠
          (mkEngine ⟨['a'], 1, 1, [0], 2⟩).bufW →
        (mkEngine ⟨['a'], 1, 1, [0], 2⟩).bufW - (mkEngine ⟨['a'], 1, 1, [0], 2⟩).bufR <
          (mkEngine ⟨['a'], 1, 1, [0], 2⟩).bufSize) ∧
      ((stopEngine (mkEngine ⟨['a'], 1, 1, [0], 2⟩)).bufR ≠
          (mkEngine ⟨['a'], 1, 1, [0], 2⟩).bufR →
        (mkEngine ⟨['a'], 1, 1, [0], 2⟩).bufR < (mkEngine ⟨['a'], 1, 1, [0], 2⟩).bufW) :=
  cursor_invariants _ _ _ _ ⟨by decide, by decide⟩ Relation.ReflTransGen.refl
    (Step.stop (mkEngine ⟨['a'], 1, 1, [0], 2⟩))

/-- C7: if the buffer occupancy `W − Rd` is positive, `Next` pops and
returns the word at slot `Rd & (capacity−1)` and increments `Rd` by one
leaving `W` unchanged; if occupancy is zero and the running flag is cleared,
`Next` returns end-of-sequence and leaves the whole state (in particular
both cursors) unchanged. -/
theorem next_pop_or_eof (e : Engine) :
    (0 < e.bufW - e.bufR →
        NextFn e = (NextRes.word (e.buf.getD (e.bufR &&& (e.bufSize - 1)) []),
            popSlot e) ∧
          (popSlot e).bufR = e.bufR + 1 ∧ (popSlot e).bufW = e.bufW) ∧
      (e.bufW - e.bufR = 0 → e.running = false → NextFn e = (NextRes.eofR, e)) := by
  constructor
  · intro h
    refine ⟨?_, rfl, rfl⟩
    unfold NextFn
    rw [if_neg (by omega)]
  · intro h hr
    unfold NextFn
    rw [if_pos (by omega), if_pos hr]

/-- Witness for C7: a one-slot-occupied engine pops; a drained stopped
engine reports end-of-sequence. -/
theorem next_pop_or_eof_witness :
    (NextFn ⟨['a'], 1, [0], 1, 0, 1, 2, [['a'], []], 0, 1, [0], 1, true⟩ =
        (NextRes.word ((⟨['a'], 1, [0], 1, 0, 1, 2, [['a'], []], 0, 1, [0], 1,
            true⟩ : Engine).buf.getD (0 &&& (2 - 1)) []),
          popSlot ⟨['a'], 1, [0], 1, 0, 1, 2, [['a'], []], 0, 1, [0], 1, true⟩) ∧
        (popSlot ⟨['a'], 1, [0], 1, 0, 1, 2, [['a'], []], 0, 1, [0], 1,
          true⟩).bufR = 0 + 1 ∧
        (popSlot ⟨['a'], 1, [0], 1, 0, 1, 2, [['a'], []], 0, 1, [0], 1,
          true⟩).bufW = 1) ∧
      NextFn ⟨['a'], 1, [0], 1, 1, 1, 2, [['a'], []], 1, 1, [0], 1, false⟩ =
        (NextRes.eofR, ⟨['a'], 1, [0], 1, 1, 1, 2, [['a'], []], 1, 1, [0], 1, false⟩) :=
  ⟨(next_pop_or_eof ⟨['a'], 1, [0], 1, 0, 1, 2, [['a'], []], 0, 1, [0], 1, true⟩).1
      (by decide),
    (next_pop_or_eof ⟨['a'], 1, [0], 1, 1, 1, 2, [['a'], []], 1, 1, [0], 1,
        false⟩).2 (by decide) rfl⟩

/-- C9: restarting a non-running engine resets the counter state, both
cursors and the start/end timestamps, but not the cumulative `generated`
counter, so `Stats` reports the total across all runs; concretely, an
engine over charset `ab` with `minLen = maxLen = 1` produces 2 items per
full run, and after a second `Run` both `generated` and `Stats` report 4. -/
theorem rerun_preserves_generated (e : Engine) (now : ℕ) (h : e.running = false) :
    (∃ e2, runStart e now = some e2 ∧
        e2.bufR = 0 ∧ e2.bufW = 0 ∧
        e2.state = e.initialState ∧ e2.stateLen = e.initialState.length ∧
        e2.startTime = now ∧ e2.endTime = 0 ∧
        e2.generated = e.generated ∧
        ∀ now2, now ≠ 0 → (stats e2 now2).1 = e.generated) ∧
      ((runStart (mkEngine ⟨['a', 'b'], 1, 1, [0], 2⟩) 1).map (prodRun 1 10)).bind
          (fun ef => (runStart ef 2).map
            (fun e3 => ((prodRun 2 10 e3).generated, (stats (prodRun 2 10 e3) 3).1))) =
        some (4, 4) := by
  refine ⟨?_, by decide⟩
  unfold runStart
  rw [if_neg (by simp [h])]
  refine ⟨_, rfl, rfl, rfl, rfl, rfl, rfl, rfl, rfl, ?_⟩
  intro now2 hnow
  unfold stats
  rw [if_neg hnow]
  rfl

/-- Witness for C9 at a freshly constructed (non-running) engine. -/
theorem rerun_preserves_generated_witness :
    (∃ e2, runStart (mkEngine ⟨['a', 'b'], 1, 1, [0], 2⟩) 1 = some e2 ∧
        e2.bufR = 0 ∧ e2.bufW = 0 ∧
        e2.state = (mkEngine ⟨['a', 'b'], 1, 1, [0], 2⟩).initialState ∧
        e2.stateLen = (mkEngine ⟨['a', 'b'], 1, 1, [0], 2⟩).initialState.length ∧
        e2.startTime = 1 ∧ e2.endTime = 0 ∧
        e2.generated = (mkEngine ⟨['a', 'b'], 1, 1, [0], 2⟩).generated ∧
        ∀ now2, (1 : ℕ) ≠ 0 →
          (stats e2 now2).1 = (mkEngine ⟨['a', 'b'], 1, 1, [0], 2⟩).generated) ∧
      ((runStart (mkEngine ⟨['a', 'b'], 1, 1, [0], 2⟩) 1).map (prodRun 1 10)).bind
          (fun ef => (runStart ef 2).map
            (fun e3 => ((prodRun 2 10 e3).generated, (stats (prodRun 2 10 e3) 3).1))) =
        some (4, 4) :=
  rerun_preserves_generated (mkEngine ⟨['a', 'b'], 1, 1, [0], 2⟩) 1 rfl

/-- Witness for C3: charset `abc` (R = 3), lengths 1–2, initial state `ba`
(length 2, rank 1); 8 items remain from there. -/
theorem initial_state_run_witness :
    (runCounter 3 2 8 (counterOfNat 3 2 1) =
        counterOfNat 3 2 1 :: (enumAll 3 1 2).drop (sumPows 3 1 1 + 1 + 1) ∧
      ((runCounter 3 2 8 ⟨[1, 0], 2⟩).map (decodeWord ['a', 'b', 'c'])).take 5 =
        [['b', 'a'], ['c', 'a'], ['a', 'b'], ['b', 'b'], ['c', 'b']]) :=
  initial_state_run 3 1 2 2 1 8 (by decide) (by decide) (by decide) (by decide) (by decide)

end Wordgen
